import Mathlib

/-!
Verification of the option-pricing library in `src/main.cpp`.

The C++ code prices a European option under the Black-Scholes model with
three engines (Monte Carlo, closed-form Black-Scholes, binomial tree).
All `double` arithmetic is modelled over `ℝ`; the C standard-library
functions `exp`, `log`, `sqrt` are modelled by `Real.exp`, `Real.log`,
`Real.sqrt`, and `std::erf` by the Gauss error function `erf` defined
below from the Gaussian integral.
-/

open MeasureTheory

/-- Model of the C standard-library error function `std::erf`:
`erf x = (2/√π) · ∫ t in 0..x, exp (-t²)`. -/
noncomputable def erf (x : ℝ) : ℝ :=
  2 / Real.sqrt Real.pi * ∫ t in (0:ℝ)..x, Real.exp (-t ^ 2)

namespace Pricing

/-- Model of the closed payoff hierarchy of `main.cpp`: the abstract class
`Option` has exactly the two concrete subclasses `EuropeanCall` and
`EuropeanPut`, each carrying its strike `K`. -/
inductive Option where
  | EuropeanCall (K : ℝ)
  | EuropeanPut (K : ℝ)

/-- Model of `EuropeanCall::payoff` / `EuropeanPut::payoff`:
`max(ST-K, 0.0)` for a call, `max(K-ST, 0.0)` for a put. -/
def Option.payoff : Option → ℝ → ℝ
  | .EuropeanCall K, ST => max (ST - K) 0
  | .EuropeanPut K, ST => max (K - ST) 0

/-- Model of the virtual accessor `Option::call`. -/
def Option.call : Option → Bool
  | .EuropeanCall _ => true
  | .EuropeanPut _ => false

/-- Model of the virtual accessor `Option::strike`. -/
def Option.strike : Option → ℝ
  | .EuropeanCall K => K
  | .EuropeanPut K => K

/-- Model of `struct Parameters`: spot `S`, volatility `sigma`,
risk-free rate `r`, time to maturity `T`. -/
structure Parameters where
  S : ℝ
  sigma : ℝ
  r : ℝ
  T : ℝ

/-- Model of the `RNG` class.  The C++ class owns an `mt19937` engine,
seeded in the constructor from `std::random_device`, and a
`normal_distribution`.  The engine-plus-distribution pipeline is a
standard-library black box, so we model the state abstractly as the
stream `gauss` of standard-normal draws it will emit together with the
current position `pos` in that stream; `sample` returns the next draw
and advances the position. -/
structure RNG where
  gauss : ℕ → ℝ
  pos : ℕ

/-- Model of `RNG::sample`: returns one draw and the advanced state. -/
def RNG.sample (g : RNG) : ℝ × RNG :=
  (g.gauss g.pos, ⟨g.gauss, g.pos + 1⟩)

/-- Model of `RNG`'s only constructor `RNG()`, which seeds the `mt19937`
engine from `std::random_device{}()`.  The caller passes no seed; the
entire draw stream is determined by the entropy the random device
produces, modelled here as the `device` argument supplied by the
environment (not by the calling code, which writes only `RNG rng;`). -/
def RNG.construct (device : ℕ → ℝ) : RNG :=
  ⟨device, 0⟩

namespace MonteCarloprice

/-- Model of the trial loop of `MonteCarloprice::mc_price`
(`for(int i=0;i<n;i++){ double z = rng.sample(); double ST = ...;
total_payoff += option.payoff(ST); }`), threading the accumulator and
the generator state. -/
noncomputable def mcLoop (option : Option) (p : Parameters) : ℕ → ℝ → RNG → ℝ × RNG
  | 0, total, rng => (total, rng)
  | n + 1, total, rng =>
    let zr := rng.sample
    let ST := p.S * Real.exp ((p.r - 0.5 * p.sigma * p.sigma) * p.T +
      p.sigma * Real.sqrt p.T * zr.1)
    mcLoop option p n (total + option.payoff ST) zr.2

/-- Model of `MonteCarloprice::mc_price`: runs the trial loop and returns
`exp(-r*T)*(total_payoff/n)` together with the final generator state.
The C++ parameter `n` is an `int`; the loop `for(i=0;i<n;i++)` performs
`n` iterations for `n ≥ 0`, modelled by `n : ℕ`. -/
noncomputable def mc_price (option : Option) (p : Parameters) (rng : RNG) (n : ℕ) :
    ℝ × RNG :=
  let tr := mcLoop option p n 0 rng
  (Real.exp (-p.r * p.T) * (tr.1 / n), tr.2)

end MonteCarloprice

namespace BlackScholesprice

/-- Model of the private helper `BlackScholesprice::normal_cdf`:
`0.5*(1.0 + erf(x/sqrt(2.0)))`. -/
noncomputable def normal_cdf (x : ℝ) : ℝ :=
  0.5 * (1.0 + erf (x / Real.sqrt 2.0))

/-- Model of the private helper `BlackScholesprice::d1`. -/
noncomputable def d1 (option : Option) (p : Parameters) : ℝ :=
  (Real.log (p.S / option.strike) + (p.r + 0.5 * p.sigma * p.sigma) * p.T) /
    (p.sigma * Real.sqrt p.T)

/-- Model of the private helper `BlackScholesprice::d2`. -/
noncomputable def d2 (option : Option) (p : Parameters) : ℝ :=
  d1 option p - p.sigma * Real.sqrt p.T

/-- Model of `BlackScholesprice::bsprice`: both branches are computed
from the shared `k1 = d1(option,p)` and `k2 = d2(option,p)`. -/
noncomputable def bsprice (option : Option) (p : Parameters) : ℝ :=
  let k1 := d1 option p
  let k2 := d2 option p
  if option.call then
    p.S * normal_cdf k1 - option.strike * Real.exp (-p.r * p.T) * normal_cdf k2
  else
    option.strike * Real.exp (-p.r * p.T) * normal_cdf (-k2) - p.S * normal_cdf (-k1)

/-- Model of `BlackScholesprice::delta`. -/
noncomputable def delta (option : Option) (p : Parameters) : ℝ :=
  let a1 := d1 option p
  let n1 := normal_cdf a1
  if option.call then n1 else n1 - 1.0

end BlackScholesprice

namespace BinomialTree

/-- Model of the terminal-layer loop of `BinomialTree::price`
(`for(int i=0;i<=N;i++){ ... values[i] = option.payoff(ST); }`):
a left fold over the index list writing `f i` at position `i`.
`List.set` leaves the list unchanged on an out-of-range index, matching
the fact that every write of the C++ loop is in bounds (proved below). -/
def fillLoop (f : ℕ → ℝ) (vals : List ℝ) (idxs : List ℕ) : List ℝ :=
  idxs.foldl (fun vs i => vs.set i (f i)) vals

/-- Model of the inner backward-induction loop of `BinomialTree::price`
(`for(int j=0;j<=i;j++){ values[j] = disc*(prob*values[j+1]+(1.0-prob)*values[j]); }`),
reading and overwriting the shared vector in place. -/
def innerLoop (disc prob : ℝ) (vals : List ℝ) (js : List ℕ) : List ℝ :=
  js.foldl (fun vs j => vs.set j (disc * (prob * vs.getD (j + 1) 0 +
    (1 - prob) * vs.getD j 0))) vals

/-- Model of the outer backward-induction loop
(`for(int i=N-1;i>=0;i--)`): `outerLoop disc prob vals k` runs the inner
loop for `i = k-1` down to `i = 0`. -/
def outerLoop (disc prob : ℝ) : List ℝ → ℕ → List ℝ
  | vals, 0 => vals
  | vals, k + 1 => outerLoop disc prob (innerLoop disc prob vals (List.range (k + 1))) k

/-- Model of `BinomialTree::price`.  `vector<double> values(N+1)` is
value-initialized to zeros, modelled by `List.replicate (N+1) 0`; the
`int` exponents of `pow(u,i)` and `pow(d,N-i)` satisfy `0 ≤ i ≤ N`, so
natural-number exponents are faithful. -/
noncomputable def price (option : Option) (p : Parameters) (N : ℕ) : ℝ :=
  let dt := p.T / N
  let u := Real.exp (p.sigma * Real.sqrt dt)
  let d := 1.0 / u
  let disc := Real.exp (-p.r * dt)
  let prob := (Real.exp (p.r * dt) - d) / (u - d)
  let values0 : List ℝ := List.replicate (N + 1) 0
  let values1 := fillLoop (fun i => option.payoff (p.S * u ^ i * d ^ (N - i)))
    values0 (List.range (N + 1))
  let values2 := outerLoop disc prob values1 N
  values2.getD 0 0

end BinomialTree

namespace Spec

/-- Spec formula (§4.3): `normalCdf(x) = 0.5·(1 + erf(x/√2))`. -/
noncomputable def normalCdf (x : ℝ) : ℝ := 0.5 * (1 + erf (x / Real.sqrt 2))

/-- Spec formula (§4.3): `d1 = (ln(S/K) + (r + σ²/2)·T) / (σ·√T)`. -/
noncomputable def d1 (S K sigma r T : ℝ) : ℝ :=
  (Real.log (S / K) + (r + sigma ^ 2 / 2) * T) / (sigma * Real.sqrt T)

/-- Spec formula (§4.3): `d2 = d1 − σ·√T`. -/
noncomputable def d2 (S K sigma r T : ℝ) : ℝ := d1 S K sigma r T - sigma * Real.sqrt T

/-- Spec call price (§4.3): `S·N(d1) − K·exp(−r·T)·N(d2)`. -/
noncomputable def callPrice (S K sigma r T : ℝ) : ℝ :=
  S * normalCdf (d1 S K sigma r T) - K * Real.exp (-r * T) * normalCdf (d2 S K sigma r T)

/-- Spec put price (§4.3): `K·exp(−r·T)·N(−d2) − S·N(−d1)`. -/
noncomputable def putPrice (S K sigma r T : ℝ) : ℝ :=
  K * Real.exp (-r * T) * normalCdf (-(d2 S K sigma r T)) -
    S * normalCdf (-(d1 S K sigma r T))

/-- Spec Monte Carlo result (§4.2): the discounted sample mean
`exp(−r·T)·((Σ_{i<n} payoff(ST_i))/n)` where
`ST_i = S·exp((r − σ²/2)·T + σ·√T·z_i)` and `z_i` is the i-th draw the
generator emits from its current position. -/
noncomputable def mcEstimate (option : Option) (p : Parameters) (g : RNG) (n : ℕ) : ℝ :=
  Real.exp (-p.r * p.T) *
    ((∑ i ∈ Finset.range n, option.payoff (p.S * Real.exp ((p.r - p.sigma ^ 2 / 2) * p.T +
      p.sigma * Real.sqrt p.T * g.gauss (g.pos + i)))) / n)

/-- One backward-induction layer of the spec (§4.4): each node becomes
`disc·(p·V_{j+1} + (1−p)·V_j)` of the previous layer. -/
noncomputable def stepLayer (disc prob : ℝ) (V : ℕ → ℝ) : ℕ → ℝ :=
  fun j => disc * (prob * V (j + 1) + (1 - prob) * V j)

/-- The spec's backward induction (§4.4) as a recursion on layers:
`N` applications of `stepLayer` to the terminal layer. -/
noncomputable def backIter (disc prob : ℝ) : ℕ → (ℕ → ℝ) → ℕ → ℝ
  | 0, V => V
  | k + 1, V => backIter disc prob k (stepLayer disc prob V)

/-- Spec binomial value (§4.4): CRR parameters `dt, u, d, disc, p`,
terminal layer `V_i = payoff(S·u^i·d^(N−i))` for `i ∈ 0..N`, then `N`
backward-induction steps; the result is node `0` of the final layer. -/
noncomputable def binomialValue (option : Option) (p : Parameters) (N : ℕ) : ℝ :=
  let dt := p.T / N
  let u := Real.exp (p.sigma * Real.sqrt dt)
  let d := 1 / u
  let disc := Real.exp (-p.r * dt)
  let prob := (Real.exp (p.r * dt) - d) / (u - d)
  backIter disc prob N (fun i => option.payoff (p.S * u ^ i * d ^ (N - i))) 0

end Spec

end Pricing

namespace BinomialTreeChecked

/-- Bounds-checked shadow of the terminal loop of `BinomialTree::price`:
each write `values[i] = …` is performed only if `i` is within the vector
bounds, and otherwise the whole computation signals an out-of-range
access by returning `none`. -/
def fillLoopC (f : ℕ → ℝ) : List ℝ → List ℕ → Option (List ℝ)
  | vals, [] => some vals
  | vals, i :: is =>
    if i < vals.length then fillLoopC f (vals.set i (f i)) is else none

/-- Bounds-checked shadow of the inner backward-induction loop of
`BinomialTree::price`: the reads `values[j+1]` and `values[j]` and the
write `values[j]` must all be within bounds, otherwise `none`. -/
def innerLoopC (disc prob : ℝ) : List ℝ → List ℕ → Option (List ℝ)
  | vals, [] => some vals
  | vals, j :: js =>
    match vals[j + 1]?, vals[j]? with
    | some vj1, some vj =>
      innerLoopC disc prob (vals.set j (disc * (prob * vj1 + (1 - prob) * vj))) js
    | _, _ => none

/-- Bounds-checked shadow of the outer backward-induction loop. -/
def outerLoopC (disc prob : ℝ) : List ℝ → ℕ → Option (List ℝ)
  | vals, 0 => some vals
  | vals, k + 1 =>
    (innerLoopC disc prob vals (List.range (k + 1))).bind fun vals' =>
      outerLoopC disc prob vals' k

/-- Bounds-checked shadow of `BinomialTree::price`: identical arithmetic,
but every vector access (terminal writes, backward-induction reads and
writes, and the final read `values[0]`) is bounds-checked; any
out-of-range access yields `none`. -/
noncomputable def priceC (option : Pricing.Option)
    (p : Pricing.Parameters) (N : ℕ) : Option ℝ :=
  let dt := p.T / N
  let u := Real.exp (p.sigma * Real.sqrt dt)
  let d := 1.0 / u
  let disc := Real.exp (-p.r * dt)
  let prob := (Real.exp (p.r * dt) - d) / (u - d)
  let values0 : List ℝ := List.replicate (N + 1) 0
  (fillLoopC (fun i => option.payoff (p.S * u ^ i * d ^ (N - i)))
      values0 (List.range (N + 1))).bind fun values1 =>
    (outerLoopC disc prob values1 N).bind fun values2 => values2[0]?

end BinomialTreeChecked

/-! Theorems. -/

/-- The error function is odd. -/
theorem erf_neg (x : ℝ) : erf (-x) = - erf x := by
  unfold erf
  have h2 := (intervalIntegral.integral_comp_neg (fun t : ℝ => Real.exp (-t ^ 2)) :
    (∫ t in (0:ℝ)..x, Real.exp (-(-t) ^ 2)) = ∫ t in (-x)..(-(0:ℝ)), Real.exp (-t ^ 2))
  simp only [neg_sq, neg_zero] at h2
  have h3 := (intervalIntegral.integral_symm 0 (-x) :
    (∫ t in (-x)..(0:ℝ), Real.exp (-t ^ 2)) = -∫ t in (0:ℝ)..(-x), Real.exp (-t ^ 2))
  rw [h3] at h2
  have h4 : (∫ t in (0:ℝ)..(-x), Real.exp (-t ^ 2)) = -∫ t in (0:ℝ)..x, Real.exp (-t ^ 2) := by
    linarith
  rw [h4]; ring

/-- On nonnegative arguments the error function is nonnegative. -/
theorem erf_nonneg_of_nonneg {x : ℝ} (hx : 0 ≤ x) : 0 ≤ erf x := by
  unfold erf
  have h1 : (0:ℝ) ≤ ∫ t in (0:ℝ)..x, Real.exp (-t ^ 2) :=
    intervalIntegral.integral_nonneg hx (fun u _ => (Real.exp_pos _).le)
  have h2 : (0:ℝ) ≤ 2 / Real.sqrt Real.pi := by positivity
  exact mul_nonneg h2 h1

/-- On nonnegative arguments the error function is at most one. -/
theorem erf_le_one_of_nonneg {x : ℝ} (hx : 0 ≤ x) : erf x ≤ 1 := by
  unfold erf
  have hg : (fun t : ℝ => Real.exp (-t ^ 2)) = fun t : ℝ => Real.exp (-1 * t ^ 2) := by
    funext t; rw [neg_mul, one_mul]
  have hint : IntegrableOn (fun t : ℝ => Real.exp (-t ^ 2)) (Set.Ioi 0) := by
    rw [hg]; exact (integrable_exp_neg_mul_sq one_pos).integrableOn
  have h1 : (∫ t in (0:ℝ)..x, Real.exp (-t ^ 2)) = ∫ t in Set.Ioc 0 x, Real.exp (-t ^ 2) :=
    intervalIntegral.integral_of_le hx
  have h2 : (∫ t in Set.Ioc 0 x, Real.exp (-t ^ 2)) ≤ ∫ t in Set.Ioi 0, Real.exp (-t ^ 2) := by
    refine setIntegral_mono_set hint ?_ ?_
    · exact Filter.Eventually.of_forall (fun u => (Real.exp_pos _).le)
    · exact Filter.Eventually.of_forall Set.Ioc_subset_Ioi_self
  have h3 : (∫ t in Set.Ioi (0:ℝ), Real.exp (-t ^ 2)) = Real.sqrt Real.pi / 2 := by
    rw [hg]
    have := integral_gaussian_Ioi 1
    simpa using this
  have hpi : (0:ℝ) < Real.sqrt Real.pi := Real.sqrt_pos.mpr Real.pi_pos
  have h4 : (∫ t in (0:ℝ)..x, Real.exp (-t ^ 2)) ≤ Real.sqrt Real.pi / 2 := by
    rw [h1]; rw [h3] at h2; exact h2
  have h5 : 2 / Real.sqrt Real.pi * (Real.sqrt Real.pi / 2) = 1 := by
    field_simp
  calc 2 / Real.sqrt Real.pi * ∫ t in (0:ℝ)..x, Real.exp (-t ^ 2)
      ≤ 2 / Real.sqrt Real.pi * (Real.sqrt Real.pi / 2) := by
        apply mul_le_mul_of_nonneg_left h4 (by positivity)
    _ = 1 := h5

/-- The error function is bounded above by one. -/
theorem erf_le_one (x : ℝ) : erf x ≤ 1 := by
  rcases le_or_lt 0 x with hx | hx
  · exact erf_le_one_of_nonneg hx
  · have h1 : erf x = - erf (-x) := by
      have := erf_neg (-x); rw [neg_neg] at this; linarith
    have h2 : 0 ≤ erf (-x) := erf_nonneg_of_nonneg (by linarith)
    linarith

/-- The error function is bounded below by minus one. -/
theorem neg_one_le_erf (x : ℝ) : -1 ≤ erf x := by
  rcases le_or_lt 0 x with hx | hx
  · have := erf_nonneg_of_nonneg hx; linarith
  · have h1 : erf x = - erf (-x) := by
      have := erf_neg (-x); rw [neg_neg] at this; linarith
    have h2 : erf (-x) ≤ 1 := erf_le_one_of_nonneg (by linarith)
    linarith


namespace Pricing

/-- Complement identity `N(x) + N(-x) = 1` for the code's normal CDF,
inherited from the oddness of the error function. -/
theorem normal_cdf_add_neg (x : ℝ) :
    BlackScholesprice.normal_cdf x + BlackScholesprice.normal_cdf (-x) = 1 := by
  unfold BlackScholesprice.normal_cdf
  have h : -x / Real.sqrt 2.0 = -(x / Real.sqrt 2.0) := by ring
  rw [h, erf_neg]; ring

/-- The code's normal CDF is nonnegative. -/
theorem normal_cdf_nonneg (x : ℝ) : 0 ≤ BlackScholesprice.normal_cdf x := by
  have h := neg_one_le_erf (x / Real.sqrt 2.0)
  unfold BlackScholesprice.normal_cdf
  linarith

/-- The code's normal CDF is at most one. -/
theorem normal_cdf_le_one (x : ℝ) : BlackScholesprice.normal_cdf x ≤ 1 := by
  have h := erf_le_one (x / Real.sqrt 2.0)
  unfold BlackScholesprice.normal_cdf
  linarith

/-- Closed form of the Monte Carlo trial loop: starting from accumulator
`total` and generator state `g`, it adds the payoffs of the `n` terminal
prices built from the next `n` draws of the stream and advances the
generator position by exactly `n`. -/
theorem mcLoop_eq (option : Option) (p : Parameters) :
    ∀ (n : ℕ) (total : ℝ) (g : RNG),
      MonteCarloprice.mcLoop option p n total g =
        (total + ∑ i ∈ Finset.range n, option.payoff (p.S * Real.exp
            ((p.r - 0.5 * p.sigma * p.sigma) * p.T +
              p.sigma * Real.sqrt p.T * g.gauss (g.pos + i))),
          ⟨g.gauss, g.pos + n⟩) := by
  intro n
  induction n with
  | zero =>
    intro total g
    simp [MonteCarloprice.mcLoop]
  | succ n ih =>
    intro total g
    rw [show MonteCarloprice.mcLoop option p (n + 1) total g =
        MonteCarloprice.mcLoop option p n (total + option.payoff (p.S * Real.exp
          ((p.r - 0.5 * p.sigma * p.sigma) * p.T +
            p.sigma * Real.sqrt p.T * g.gauss g.pos))) ⟨g.gauss, g.pos + 1⟩ from rfl]
    rw [ih]
    have hsum : (∑ i ∈ Finset.range n, option.payoff (p.S * Real.exp
          ((p.r - 0.5 * p.sigma * p.sigma) * p.T +
            p.sigma * Real.sqrt p.T * g.gauss (g.pos + 1 + i)))) =
        ∑ i ∈ Finset.range n, option.payoff (p.S * Real.exp
          ((p.r - 0.5 * p.sigma * p.sigma) * p.T +
            p.sigma * Real.sqrt p.T * g.gauss (g.pos + (i + 1)))) := by
      refine Finset.sum_congr rfl (fun i _ => ?_)
      rw [show g.pos + 1 + i = g.pos + (i + 1) from by omega]
    have hnext : (∑ i ∈ Finset.range (n + 1), option.payoff (p.S * Real.exp
          ((p.r - 0.5 * p.sigma * p.sigma) * p.T +
            p.sigma * Real.sqrt p.T * g.gauss (g.pos + i)))) =
        (∑ i ∈ Finset.range n, option.payoff (p.S * Real.exp
          ((p.r - 0.5 * p.sigma * p.sigma) * p.T +
            p.sigma * Real.sqrt p.T * g.gauss (g.pos + (i + 1))))) +
          option.payoff (p.S * Real.exp
            ((p.r - 0.5 * p.sigma * p.sigma) * p.T +
              p.sigma * Real.sqrt p.T * g.gauss (g.pos + 0))) :=
      Finset.sum_range_succ' _ n
    refine Prod.ext ?_ ?_
    · simp only [hsum, hnext, Nat.add_zero]
      ring
    · simp only []
      congr 1
      omega

/-- Characterization of `mc_price`: the result is the discounted sample
mean of the `n` payoffs built from the next `n` draws, and the final
generator state is advanced by exactly `n` positions. -/
theorem mc_price_eq (option : Option) (p : Parameters) (g : RNG) (n : ℕ) :
    MonteCarloprice.mc_price option p g n =
      (Spec.mcEstimate option p g n, ⟨g.gauss, g.pos + n⟩) := by
  unfold MonteCarloprice.mc_price Spec.mcEstimate
  rw [mcLoop_eq]
  have hterm : (∑ i ∈ Finset.range n, option.payoff (p.S * Real.exp
        ((p.r - 0.5 * p.sigma * p.sigma) * p.T +
          p.sigma * Real.sqrt p.T * g.gauss (g.pos + i)))) =
      ∑ i ∈ Finset.range n, option.payoff (p.S * Real.exp
        ((p.r - p.sigma ^ 2 / 2) * p.T + p.sigma * Real.sqrt p.T * g.gauss (g.pos + i))) := by
    refine Finset.sum_congr rfl (fun i _ => ?_)
    rw [show (p.r - 0.5 * p.sigma * p.sigma) * p.T + p.sigma * Real.sqrt p.T * g.gauss (g.pos + i)
        = (p.r - p.sigma ^ 2 / 2) * p.T + p.sigma * Real.sqrt p.T * g.gauss (g.pos + i)
      from by ring]
  simp only [zero_add, hterm]

end Pricing

namespace Pricing

namespace BinomialTree

/-- Reading back an in-bounds write. -/
theorem getD_set_self (l : List ℝ) (i : ℕ) (v : ℝ) (h : i < l.length) :
    (l.set i v).getD i 0 = v := by
  simp [List.getD, List.getElem?_set_self', h]

/-- Reading a position other than the one written. -/
theorem getD_set_ne (l : List ℝ) (i j : ℕ) (v : ℝ) (h : i ≠ j) :
    (l.set i v).getD j 0 = l.getD j 0 := by
  simp [List.getD, List.getElem?_set_ne h]

/-- Every entry of the zero-initialized vector reads as zero. -/
theorem getD_replicate (n i : ℕ) : (List.replicate n (0:ℝ)).getD i 0 = 0 := by
  simp [List.getD]

/-- Unfolding one iteration of the terminal-fill loop. -/
theorem fillLoop_cons (f : ℕ → ℝ) (vals : List ℝ) (i : ℕ) (idxs : List ℕ) :
    fillLoop f vals (i :: idxs) = fillLoop f (vals.set i (f i)) idxs := rfl

/-- Unfolding one iteration of the inner backward-induction loop. -/
theorem innerLoop_cons (disc prob : ℝ) (vals : List ℝ) (j : ℕ) (js : List ℕ) :
    innerLoop disc prob vals (j :: js) =
      innerLoop disc prob (vals.set j (disc * (prob * vals.getD (j + 1) 0 +
        (1 - prob) * vals.getD j 0))) js := rfl

/-- The terminal-fill loop preserves the vector length. -/
theorem length_fillLoop (f : ℕ → ℝ) :
    ∀ (idxs : List ℕ) (vals : List ℝ), (fillLoop f vals idxs).length = vals.length := by
  intro idxs
  induction idxs with
  | nil => intro vals; rfl
  | cons i is ih => intro vals; rw [fillLoop_cons, ih, List.length_set]

/-- The inner backward-induction loop preserves the vector length. -/
theorem length_innerLoop (disc prob : ℝ) :
    ∀ (js : List ℕ) (vals : List ℝ), (innerLoop disc prob vals js).length = vals.length := by
  intro js
  induction js with
  | nil => intro vals; rfl
  | cons j js ih => intro vals; rw [innerLoop_cons, ih, List.length_set]

/-- The outer backward-induction loop preserves the vector length. -/
theorem length_outerLoop (disc prob : ℝ) :
    ∀ (k : ℕ) (vals : List ℝ), (outerLoop disc prob vals k).length = vals.length := by
  intro k
  induction k with
  | zero => intro vals; rfl
  | succ k ih =>
    intro vals
    rw [outerLoop, ih, length_innerLoop]

/-- Folding over an appended index list splits into two folds. -/
theorem innerLoop_append (disc prob : ℝ) (vals : List ℝ) (l1 l2 : List ℕ) :
    innerLoop disc prob vals (l1 ++ l2) =
      innerLoop disc prob (innerLoop disc prob vals l1) l2 :=
  List.foldl_append ..

/-- Folding the terminal fill over an appended index list. -/
theorem fillLoop_append (f : ℕ → ℝ) (vals : List ℝ) (l1 l2 : List ℕ) :
    fillLoop f vals (l1 ++ l2) = fillLoop f (fillLoop f vals l1) l2 :=
  List.foldl_append ..

/-- Entry-wise description of one inner pass over `j = 0..m-1`: every
position below `m` is overwritten with the backward-induction combination
of the OLD entries at `j` and `j+1` (the ascending in-place loop reads
`values[j+1]` before overwriting it), and positions `≥ m` keep their old
values. -/
theorem innerLoop_getD (disc prob : ℝ) :
    ∀ (m : ℕ) (vals : List ℝ), m ≤ vals.length → ∀ (k : ℕ),
      (innerLoop disc prob vals (List.range m)).getD k 0 =
        if k < m then disc * (prob * vals.getD (k + 1) 0 + (1 - prob) * vals.getD k 0)
        else vals.getD k 0 := by
  intro m
  induction m with
  | zero =>
    intro vals _ k
    simp [innerLoop]
  | succ m ih =>
    intro vals hm k
    have hmlen : m ≤ vals.length := Nat.le_of_succ_le hm
    have hmlt : m < vals.length := hm
    rw [List.range_succ, innerLoop_append]
    set prev := innerLoop disc prob vals (List.range m) with hprev
    have hlen : prev.length = vals.length := length_innerLoop ..
    have hm1 : prev.getD (m + 1) 0 = vals.getD (m + 1) 0 := by
      rw [ih vals hmlen (m + 1)]
      simp
    have hm0 : prev.getD m 0 = vals.getD m 0 := by
      rw [ih vals hmlen m]
      simp
    have hstep : innerLoop disc prob prev [m] =
        prev.set m (disc * (prob * prev.getD (m + 1) 0 + (1 - prob) * prev.getD m 0)) := rfl
    rw [hstep, hm1, hm0]
    rcases eq_or_ne m k with hk | hk
    · subst hk
      rw [getD_set_self _ _ _ (by rw [hlen]; exact hmlt)]
      simp
    · rw [getD_set_ne _ _ _ _ hk, ih vals hmlen k]
      rcases Nat.lt_trichotomy k m with h | h | h
      · rw [if_pos h, if_pos (by omega)]
      · exact absurd h.symm hk
      · rw [if_neg (by omega), if_neg (by omega)]

/-- Entry-wise description of the terminal fill over `i = 0..m-1`. -/
theorem fillLoop_getD (f : ℕ → ℝ) :
    ∀ (m : ℕ) (vals : List ℝ), m ≤ vals.length → ∀ (k : ℕ),
      (fillLoop f vals (List.range m)).getD k 0 =
        if k < m then f k else vals.getD k 0 := by
  intro m
  induction m with
  | zero =>
    intro vals _ k
    simp [fillLoop]
  | succ m ih =>
    intro vals hm k
    have hmlen : m ≤ vals.length := Nat.le_of_succ_le hm
    have hmlt : m < vals.length := hm
    rw [List.range_succ, fillLoop_append]
    set prev := fillLoop f vals (List.range m) with hprev
    have hlen : prev.length = vals.length := length_fillLoop ..
    have hstep : fillLoop f prev [m] = prev.set m (f m) := rfl
    rw [hstep]
    rcases eq_or_ne m k with hk | hk
    · subst hk
      rw [getD_set_self _ _ _ (by rw [hlen]; exact hmlt)]
      simp
    · rw [getD_set_ne _ _ _ _ hk, ih vals hmlen k]
      rcases Nat.lt_trichotomy k m with h | h | h
      · rw [if_pos h, if_pos (by omega)]
      · exact absurd h.symm hk
      · rw [if_neg (by omega), if_neg (by omega)]

end BinomialTree

/-- The spec's backward induction only looks at layer entries up to
`j + k`, so layers agreeing there induct to equal values. -/
theorem Spec.backIter_congr (disc prob : ℝ) :
    ∀ (k : ℕ) (j : ℕ) (V W : ℕ → ℝ), (∀ i, i ≤ j + k → V i = W i) →
      Spec.backIter disc prob k V j = Spec.backIter disc prob k W j := by
  intro k
  induction k with
  | zero =>
    intro j V W h
    exact h j (by omega)
  | succ k ih =>
    intro j V W h
    rw [Spec.backIter, Spec.backIter]
    refine ih j _ _ (fun i hi => ?_)
    unfold Spec.stepLayer
    rw [h (i + 1) (by omega), h i (by omega)]

/-- The in-place outer loop computes the spec's backward induction: after
`k` passes the root entry equals `k`-fold `stepLayer` applied to the
original entries, read at index `0`. -/
theorem BinomialTree.outerLoop_getD (disc prob : ℝ) :
    ∀ (k : ℕ) (vals : List ℝ), k ≤ vals.length →
      (BinomialTree.outerLoop disc prob vals k).getD 0 0 =
        Spec.backIter disc prob k (fun i => vals.getD i 0) 0 := by
  intro k
  induction k with
  | zero =>
    intro vals _
    rfl
  | succ k ih =>
    intro vals hk
    rw [BinomialTree.outerLoop]
    have hlen : (BinomialTree.innerLoop disc prob vals (List.range (k + 1))).length =
      vals.length := BinomialTree.length_innerLoop ..
    rw [ih _ (by rw [hlen]; omega)]
    rw [Spec.backIter]
    refine Spec.backIter_congr disc prob k 0 _ _ (fun i hi => ?_)
    rw [BinomialTree.innerLoop_getD disc prob (k + 1) vals hk i, if_pos (by omega)]
    rfl

end Pricing

namespace Pricing

/-- Core of the binomial correspondence: outer loop over the filled
terminal layer computes the spec's backward induction of the terminal
function, for any discount, probability and terminal function. -/
theorem BinomialTree.priceCore (disc prob : ℝ) (f : ℕ → ℝ) (N : ℕ) :
    (BinomialTree.outerLoop disc prob
        (BinomialTree.fillLoop f (List.replicate (N + 1) (0:ℝ)) (List.range (N + 1)))
        N).getD 0 0 =
      Spec.backIter disc prob N f 0 := by
  have hlen : (BinomialTree.fillLoop f (List.replicate (N + 1) (0:ℝ))
      (List.range (N + 1))).length = N + 1 := by
    rw [BinomialTree.length_fillLoop, List.length_replicate]
  rw [BinomialTree.outerLoop_getD disc prob N _ (by rw [hlen]; omega)]
  refine Spec.backIter_congr disc prob N 0 _ _ (fun i hi => ?_)
  rw [BinomialTree.fillLoop_getD f (N + 1) _ (by rw [List.length_replicate]) i,
    if_pos (by omega)]

/-- The in-place lattice algorithm of `BinomialTree::price` computes the
spec's functional backward induction `Spec.binomialValue`. -/
theorem BinomialTree.price_eq_binomialValue (option : Option) (p : Parameters) (N : ℕ) :
    BinomialTree.price option p N = Spec.binomialValue option p N := by
  simp only [BinomialTree.price, Spec.binomialValue,
    show (1.0:ℝ) = 1 from by norm_num]
  rw [BinomialTree.priceCore]

/-- The bounds-checked terminal fill agrees with the unchecked one when
every written index is in range. -/
theorem BinomialTreeChecked.fillLoopC_eq (f : ℕ → ℝ) :
    ∀ (idxs : List ℕ) (vals : List ℝ), (∀ i ∈ idxs, i < vals.length) →
      BinomialTreeChecked.fillLoopC f vals idxs =
        some (BinomialTree.fillLoop f vals idxs) := by
  intro idxs
  induction idxs with
  | nil => intro vals _; rfl
  | cons i is ih =>
    intro vals h
    rw [BinomialTreeChecked.fillLoopC, if_pos (h i (List.mem_cons_self i is)),
      BinomialTree.fillLoop_cons]
    refine ih _ (fun j hj => ?_)
    rw [List.length_set]
    exact h j (List.mem_cons_of_mem _ hj)

/-- The bounds-checked inner loop agrees with the unchecked one when every
read index `j+1` (and hence every read/write at `j`) is in range. -/
theorem BinomialTreeChecked.innerLoopC_eq (disc prob : ℝ) :
    ∀ (js : List ℕ) (vals : List ℝ), (∀ j ∈ js, j + 1 < vals.length) →
      BinomialTreeChecked.innerLoopC disc prob vals js =
        some (BinomialTree.innerLoop disc prob vals js) := by
  intro js
  induction js with
  | nil => intro vals _; rfl
  | cons j js ih =>
    intro vals h
    have hj1 : j + 1 < vals.length := h j (List.mem_cons_self j js)
    have hj : j < vals.length := by omega
    rw [BinomialTreeChecked.innerLoopC, List.getElem?_eq_getElem hj1,
      List.getElem?_eq_getElem hj]
    have hD1 : vals[j + 1] = vals.getD (j + 1) 0 := (List.getD_eq_getElem vals 0 hj1).symm
    have hD0 : vals[j] = vals.getD j 0 := (List.getD_eq_getElem vals 0 hj).symm
    rw [hD1, hD0, BinomialTree.innerLoop_cons]
    refine ih _ (fun i hi => ?_)
    rw [List.length_set]
    exact h i (List.mem_cons_of_mem _ hi)

/-- The bounds-checked outer loop agrees with the unchecked one when the
pass count is below the vector length. -/
theorem BinomialTreeChecked.outerLoopC_eq (disc prob : ℝ) :
    ∀ (k : ℕ) (vals : List ℝ), k < vals.length →
      BinomialTreeChecked.outerLoopC disc prob vals k =
        some (BinomialTree.outerLoop disc prob vals k) := by
  intro k
  induction k with
  | zero => intro vals _; rfl
  | succ k ih =>
    intro vals hk
    rw [BinomialTreeChecked.outerLoopC, BinomialTree.outerLoop]
    rw [BinomialTreeChecked.innerLoopC_eq disc prob (List.range (k + 1)) vals
      (fun j hj => by rw [List.mem_range] at hj; omega)]
    rw [Option.some_bind]
    exact ih _ (by rw [BinomialTree.length_innerLoop]; omega)

/-- Every vector access of `BinomialTree::price` is in bounds: the
bounds-checked shadow never fails and returns the unchecked price. -/
theorem BinomialTreeChecked.priceC_eq (option : Option) (p : Parameters) (N : ℕ) :
    BinomialTreeChecked.priceC option p N = some (BinomialTree.price option p N) := by
  simp only [BinomialTreeChecked.priceC, BinomialTree.price]
  rw [BinomialTreeChecked.fillLoopC_eq _ (List.range (N + 1)) _
    (fun i hi => by rw [List.mem_range] at hi; rw [List.length_replicate]; omega)]
  rw [Option.some_bind]
  have hlen : (BinomialTree.fillLoop
      (fun i => option.payoff (p.S * Real.exp (p.sigma * Real.sqrt (p.T / (N:ℝ))) ^ i *
        (1.0 / Real.exp (p.sigma * Real.sqrt (p.T / (N:ℝ)))) ^ (N - i)))
      (List.replicate (N + 1) (0:ℝ)) (List.range (N + 1))).length = N + 1 := by
    rw [BinomialTree.length_fillLoop, List.length_replicate]
  rw [BinomialTreeChecked.outerLoopC_eq _ _ N _ (by rw [hlen]; omega)]
  rw [Option.some_bind]
  have hlen2 : (BinomialTree.outerLoop (Real.exp (-p.r * (p.T / (N:ℝ))))
      ((Real.exp (p.r * (p.T / (N:ℝ))) - 1.0 / Real.exp (p.sigma * Real.sqrt (p.T / (N:ℝ)))) /
        (Real.exp (p.sigma * Real.sqrt (p.T / (N:ℝ))) -
          1.0 / Real.exp (p.sigma * Real.sqrt (p.T / (N:ℝ)))))
      (BinomialTree.fillLoop
        (fun i => option.payoff (p.S * Real.exp (p.sigma * Real.sqrt (p.T / (N:ℝ))) ^ i *
          (1.0 / Real.exp (p.sigma * Real.sqrt (p.T / (N:ℝ)))) ^ (N - i)))
        (List.replicate (N + 1) (0:ℝ)) (List.range (N + 1))) N).length = N + 1 := by
    rw [BinomialTree.length_outerLoop, BinomialTree.length_fillLoop, List.length_replicate]
  rw [List.getElem?_eq_getElem (by rw [hlen2]; omega)]
  rw [List.getD_eq_getElem _ 0 (by rw [hlen2]; omega)]

end Pricing

namespace Pricing

/-- The code's `normal_cdf` is the spec's `normalCdf`. -/
theorem normal_cdf_eq_spec (x : ℝ) :
    BlackScholesprice.normal_cdf x = Spec.normalCdf x := by
  unfold BlackScholesprice.normal_cdf Spec.normalCdf
  norm_num

/-- The code's `d1` is the spec's `d1` at the option's strike. -/
theorem d1_eq_spec (option : Option) (p : Parameters) :
    BlackScholesprice.d1 option p = Spec.d1 p.S option.strike p.sigma p.r p.T := by
  unfold BlackScholesprice.d1 Spec.d1
  rw [show p.r + 0.5 * p.sigma * p.sigma = p.r + p.sigma ^ 2 / 2 from by ring]

/-- The code's `d2` is the spec's `d2` at the option's strike. -/
theorem d2_eq_spec (option : Option) (p : Parameters) :
    BlackScholesprice.d2 option p = Spec.d2 p.S option.strike p.sigma p.r p.T := by
  unfold BlackScholesprice.d2 Spec.d2
  rw [d1_eq_spec]

/-- On a call, `bsprice` evaluates the spec's call-price formula. -/
theorem bsprice_call_eq (K : ℝ) (p : Parameters) :
    BlackScholesprice.bsprice (Option.EuropeanCall K) p =
      Spec.callPrice p.S K p.sigma p.r p.T := by
  unfold BlackScholesprice.bsprice Spec.callPrice
  rw [show (Option.EuropeanCall K).call = true from rfl]
  rw [d1_eq_spec, d2_eq_spec]
  rw [show (Option.EuropeanCall K).strike = K from rfl]
  simp only [if_true, normal_cdf_eq_spec]

/-- On a put, `bsprice` evaluates the spec's put-price formula. -/
theorem bsprice_put_eq (K : ℝ) (p : Parameters) :
    BlackScholesprice.bsprice (Option.EuropeanPut K) p =
      Spec.putPrice p.S K p.sigma p.r p.T := by
  unfold BlackScholesprice.bsprice Spec.putPrice
  rw [show (Option.EuropeanPut K).call = false from rfl]
  rw [d1_eq_spec, d2_eq_spec]
  rw [show (Option.EuropeanPut K).strike = K from rfl]
  simp only [Bool.false_eq_true, if_false, normal_cdf_eq_spec]

/-- On a call, `delta` evaluates `N(d1)`. -/
theorem delta_call_eq (K : ℝ) (p : Parameters) :
    BlackScholesprice.delta (Option.EuropeanCall K) p =
      BlackScholesprice.normal_cdf (BlackScholesprice.d1 (Option.EuropeanCall K) p) := rfl

/-- On a put, `delta` evaluates `N(d1) - 1`. -/
theorem delta_put_eq (K : ℝ) (p : Parameters) :
    BlackScholesprice.delta (Option.EuropeanPut K) p =
      BlackScholesprice.normal_cdf (BlackScholesprice.d1 (Option.EuropeanPut K) p) - 1.0 := rfl

/-- Every payoff of the closed hierarchy is nonnegative. -/
theorem Option.payoff_nonneg (option : Option) (ST : ℝ) : 0 ≤ option.payoff ST := by
  cases option <;> exact le_max_right _ 0

end Pricing

namespace Pricing

/-- Complement identity for the spec's normal CDF. -/
theorem spec_normalCdf_add_neg (x : ℝ) :
    Spec.normalCdf x + Spec.normalCdf (-x) = 1 := by
  rw [← normal_cdf_eq_spec, ← normal_cdf_eq_spec]
  exact normal_cdf_add_neg x

/-- The spec's normal CDF is nonnegative. -/
theorem spec_normalCdf_nonneg (x : ℝ) : 0 ≤ Spec.normalCdf x := by
  rw [← normal_cdf_eq_spec]; exact normal_cdf_nonneg x

/-- The spec's normal CDF is at most one. -/
theorem spec_normalCdf_le_one (x : ℝ) : Spec.normalCdf x ≤ 1 := by
  rw [← normal_cdf_eq_spec]; exact normal_cdf_le_one x

end Pricing

namespace Pricing

/-- C1: for every Call or Put payoff with strike `K > 0` and market
parameters with `S > 0`, `σ > 0`, `T > 0`, `bsprice` returns
`S·N(d1) − K·exp(−r·T)·N(d2)` on the call and
`K·exp(−r·T)·N(−d2) − S·N(−d1)` on the put, with
`d1 = (ln(S/K) + (r + σ²/2)·T)/(σ·√T)`, `d2 = d1 − σ·√T` and
`N(x) = 0.5·(1 + erf(x/√2))`, both branches computed from the same
`d1`/`d2`. -/
theorem C1_bsprice_formula (K : ℝ) (p : Parameters) (hK : 0 < K) (hS : 0 < p.S)
    (hsig : 0 < p.sigma) (hT : 0 < p.T) :
    BlackScholesprice.bsprice (Option.EuropeanCall K) p =
        Spec.callPrice p.S K p.sigma p.r p.T ∧
      BlackScholesprice.bsprice (Option.EuropeanPut K) p =
        Spec.putPrice p.S K p.sigma p.r p.T :=
  ⟨bsprice_call_eq K p, bsprice_put_eq K p⟩

/-- Witness for C1 at the `main.cpp` scenario `S=100, σ=0.2, r=0.05,
T=1, K=100`. -/
theorem C1_bsprice_formula_witness :
    ((0:ℝ) < 100 ∧ (0:ℝ) < 0.2 ∧ (0:ℝ) < 1) ∧
      (BlackScholesprice.bsprice (Option.EuropeanCall 100)
          (Parameters.mk 100 0.2 0.05 1) =
          Spec.callPrice 100 100 0.2 0.05 1 ∧
        BlackScholesprice.bsprice (Option.EuropeanPut 100)
          (Parameters.mk 100 0.2 0.05 1) =
          Spec.putPrice 100 100 0.2 0.05 1) :=
  ⟨⟨by norm_num, by norm_num, by norm_num⟩,
    C1_bsprice_formula 100 (Parameters.mk 100 0.2 0.05 1) (by norm_num)
      (by norm_num) (by norm_num) (by norm_num)⟩

/-- C3: for every payoff, market parameters with `S, σ, T > 0` and step
count `N ≥ 1`, the binomial pricer computes the CRR parameters
`dt = T/N`, `u = exp(σ√dt)`, `d = 1/u`, `disc = exp(−r·dt)`,
`p = (exp(r·dt) − d)/(u − d)`, fills the terminal layer
`V_i = payoff(S·u^i·d^(N−i))` for `i ∈ 0..N`, performs the in-place
backward induction `V_j ← disc·(p·V_{j+1} + (1−p)·V_j)` for `step` from
`N−1` down to `0` and `j ∈ 0..step`, and returns `V_0`: equivalently,
its value is the spec's functional backward induction
`Spec.binomialValue`. -/
theorem C3_binomial_algorithm (option : Option) (p : Parameters) (N : ℕ)
    (hS : 0 < p.S) (hsig : 0 < p.sigma) (hT : 0 < p.T) (hN : 1 ≤ N) :
    BinomialTree.price option p N = Spec.binomialValue option p N :=
  BinomialTree.price_eq_binomialValue option p N

/-- Witness for C3 with one step at the `main.cpp` parameters. -/
theorem C3_binomial_algorithm_witness :
    ((0:ℝ) < 100 ∧ (0:ℝ) < 0.2 ∧ (0:ℝ) < 1 ∧ 1 ≤ 1) ∧
      BinomialTree.price (Option.EuropeanCall 100) (Parameters.mk 100 0.2 0.05 1) 1 =
        Spec.binomialValue (Option.EuropeanCall 100) (Parameters.mk 100 0.2 0.05 1) 1 :=
  ⟨⟨by norm_num, by norm_num, by norm_num, le_refl 1⟩,
    C3_binomial_algorithm (Option.EuropeanCall 100) (Parameters.mk 100 0.2 0.05 1) 1
      (by norm_num) (by norm_num) (by norm_num) (le_refl 1)⟩

/-- C4: for every payoff, parameters, generator state and
`pathCount n ≥ 1`, the Monte Carlo pricer performs exactly `n` trials,
drawing one `z` per trial, computing
`ST = S·exp((r − σ²/2)·T + σ·√T·z)` and accumulating `payoff(ST)`, and
returns `exp(−r·T)` times the sum of the `n` payoffs divided by `n`
(the discounted sample mean), with the generator advanced by exactly
`n` draws. -/
theorem C4_mc_estimator (option : Option) (p : Parameters) (g : RNG) (n : ℕ)
    (hn : 1 ≤ n) :
    MonteCarloprice.mc_price option p g n =
      (Spec.mcEstimate option p g n, ⟨g.gauss, g.pos + n⟩) :=
  mc_price_eq option p g n

/-- Witness for C4 with two paths and an explicit draw stream. -/
theorem C4_mc_estimator_witness :
    1 ≤ 2 ∧
      MonteCarloprice.mc_price (Option.EuropeanCall 1) (Parameters.mk 1 1 0 1)
          (RNG.mk (fun i => (i:ℝ)) 0) 2 =
        (Spec.mcEstimate (Option.EuropeanCall 1) (Parameters.mk 1 1 0 1)
            (RNG.mk (fun i => (i:ℝ)) 0) 2,
          RNG.mk (fun i => (i:ℝ)) (0 + 2)) :=
  ⟨by norm_num,
    C4_mc_estimator (Option.EuropeanCall 1) (Parameters.mk 1 1 0 1)
      (RNG.mk (fun i => (i:ℝ)) 0) 2 (by norm_num)⟩

/-- C5: put-call parity holds exactly for the code's Black-Scholes
prices: for valid parameters and a shared strike,
`bsprice(Call) − bsprice(Put) = S − K·exp(−r·T)` (over the reals the
identity is exact, hence within any floating-point tolerance). -/
theorem C5_put_call_parity (K : ℝ) (p : Parameters) (hK : 0 < K) (hS : 0 < p.S)
    (hsig : 0 < p.sigma) (hT : 0 < p.T) :
    BlackScholesprice.bsprice (Option.EuropeanCall K) p -
        BlackScholesprice.bsprice (Option.EuropeanPut K) p =
      p.S - K * Real.exp (-p.r * p.T) := by
  rw [bsprice_call_eq, bsprice_put_eq]
  unfold Spec.callPrice Spec.putPrice
  rw [show Spec.normalCdf (-Spec.d2 p.S K p.sigma p.r p.T) =
      1 - Spec.normalCdf (Spec.d2 p.S K p.sigma p.r p.T) from by
    linarith [spec_normalCdf_add_neg (Spec.d2 p.S K p.sigma p.r p.T)]]
  rw [show Spec.normalCdf (-Spec.d1 p.S K p.sigma p.r p.T) =
      1 - Spec.normalCdf (Spec.d1 p.S K p.sigma p.r p.T) from by
    linarith [spec_normalCdf_add_neg (Spec.d1 p.S K p.sigma p.r p.T)]]
  ring

/-- Witness for C5 at the `main.cpp` scenario. -/
theorem C5_put_call_parity_witness :
    ((0:ℝ) < 100 ∧ (0:ℝ) < 0.2 ∧ (0:ℝ) < 1) ∧
      BlackScholesprice.bsprice (Option.EuropeanCall 100) (Parameters.mk 100 0.2 0.05 1) -
          BlackScholesprice.bsprice (Option.EuropeanPut 100) (Parameters.mk 100 0.2 0.05 1) =
        (Parameters.mk (100:ℝ) 0.2 0.05 1).S - 100 * Real.exp (-(Parameters.mk (100:ℝ) 0.2 0.05 1).r * (Parameters.mk (100:ℝ) 0.2 0.05 1).T) :=
  ⟨⟨by norm_num, by norm_num, by norm_num⟩,
    C5_put_call_parity 100 (Parameters.mk 100 0.2 0.05 1) (by norm_num)
      (by norm_num) (by norm_num) (by norm_num)⟩

/-- C6: for valid parameters and strike, `delta` returns `N(d1)` on a
call and `N(d1) − 1` on a put; hence the call delta lies in `[0,1]`, the
put delta lies in `[−1,0]`, and `delta(Call) − delta(Put) = 1` at the
same strike and parameters. -/
theorem C6_delta_properties (K : ℝ) (p : Parameters) (hK : 0 < K) (hS : 0 < p.S)
    (hsig : 0 < p.sigma) (hT : 0 < p.T) :
    BlackScholesprice.delta (Option.EuropeanCall K) p =
        Spec.normalCdf (Spec.d1 p.S K p.sigma p.r p.T) ∧
      BlackScholesprice.delta (Option.EuropeanPut K) p =
        Spec.normalCdf (Spec.d1 p.S K p.sigma p.r p.T) - 1 ∧
      0 ≤ BlackScholesprice.delta (Option.EuropeanCall K) p ∧
      BlackScholesprice.delta (Option.EuropeanCall K) p ≤ 1 ∧
      -1 ≤ BlackScholesprice.delta (Option.EuropeanPut K) p ∧
      BlackScholesprice.delta (Option.EuropeanPut K) p ≤ 0 ∧
      BlackScholesprice.delta (Option.EuropeanCall K) p -
        BlackScholesprice.delta (Option.EuropeanPut K) p = 1 := by
  have hcall : BlackScholesprice.delta (Option.EuropeanCall K) p =
      Spec.normalCdf (Spec.d1 p.S K p.sigma p.r p.T) := by
    rw [delta_call_eq, normal_cdf_eq_spec, d1_eq_spec]
    simp only [Option.strike]
  have hput : BlackScholesprice.delta (Option.EuropeanPut K) p =
      Spec.normalCdf (Spec.d1 p.S K p.sigma p.r p.T) - 1 := by
    rw [delta_put_eq, normal_cdf_eq_spec, d1_eq_spec]
    simp only [Option.strike]
    norm_num
  have hnn := spec_normalCdf_nonneg (Spec.d1 p.S K p.sigma p.r p.T)
  have hle := spec_normalCdf_le_one (Spec.d1 p.S K p.sigma p.r p.T)
  refine ⟨hcall, hput, ?_, ?_, ?_, ?_, ?_⟩
  · rw [hcall]; linarith
  · rw [hcall]; linarith
  · rw [hput]; linarith
  · rw [hput]; linarith
  · rw [hcall, hput]; ring

/-- Witness for C6 at the `main.cpp` scenario. -/
theorem C6_delta_properties_witness :
    ((0:ℝ) < 100 ∧ (0:ℝ) < 0.2 ∧ (0:ℝ) < 1) ∧
      (BlackScholesprice.delta (Option.EuropeanCall 100) (Parameters.mk 100 0.2 0.05 1) =
          Spec.normalCdf (Spec.d1 100 100 0.2 0.05 1) ∧
        BlackScholesprice.delta (Option.EuropeanPut 100) (Parameters.mk 100 0.2 0.05 1) =
          Spec.normalCdf (Spec.d1 100 100 0.2 0.05 1) - 1 ∧
        0 ≤ BlackScholesprice.delta (Option.EuropeanCall 100) (Parameters.mk 100 0.2 0.05 1) ∧
        BlackScholesprice.delta (Option.EuropeanCall 100) (Parameters.mk 100 0.2 0.05 1) ≤ 1 ∧
        -1 ≤ BlackScholesprice.delta (Option.EuropeanPut 100) (Parameters.mk 100 0.2 0.05 1) ∧
        BlackScholesprice.delta (Option.EuropeanPut 100) (Parameters.mk 100 0.2 0.05 1) ≤ 0 ∧
        BlackScholesprice.delta (Option.EuropeanCall 100) (Parameters.mk 100 0.2 0.05 1) -
          BlackScholesprice.delta (Option.EuropeanPut 100) (Parameters.mk 100 0.2 0.05 1) = 1) :=
  ⟨⟨by norm_num, by norm_num, by norm_num⟩,
    C6_delta_properties 100 (Parameters.mk 100 0.2 0.05 1) (by norm_num)
      (by norm_num) (by norm_num) (by norm_num)⟩

/-- C7: calling the binomial pricer with `stepCount = 0` degenerates to
the undiscounted terminal payoff at the spot itself: the vector has a
single node `values[0] = payoff(S·u⁰·d⁰) = payoff(S)`, the backward
induction performs no pass, and `payoff(S)` is returned. -/
theorem C7_binomial_zero_steps (option : Option) (p : Parameters) :
    BinomialTree.price option p 0 = option.payoff p.S := by
  simp only [BinomialTree.price, BinomialTree.outerLoop]
  rw [BinomialTree.fillLoop_getD _ (0 + 1) _ (by rw [List.length_replicate]) 0,
    if_pos (by omega)]
  simp

/-- C9: for every step count `N ≥ 1` (and any payoff and parameters),
every vector access performed by the binomial pricer is in bounds: the
bounds-checked shadow of the algorithm, which returns `none` on any
out-of-range read or write, succeeds and returns exactly the unchecked
price. -/
theorem C9_accesses_in_bounds (option : Option) (p : Parameters) (N : ℕ)
    (hN : 1 ≤ N) :
    BinomialTreeChecked.priceC option p N = some (BinomialTree.price option p N) :=
  BinomialTreeChecked.priceC_eq option p N

/-- Witness for C9 with one step. -/
theorem C9_accesses_in_bounds_witness :
    1 ≤ 1 ∧
      BinomialTreeChecked.priceC (Option.EuropeanCall 1) (Parameters.mk 1 1 1 1) 1 =
        some (BinomialTree.price (Option.EuropeanCall 1) (Parameters.mk 1 1 1 1) 1) :=
  ⟨le_refl 1,
    C9_accesses_in_bounds (Option.EuropeanCall 1) (Parameters.mk 1 1 1 1) 1 (le_refl 1)⟩

/-- C10: for every Call or Put payoff, parameters, generator state and
`pathCount n ≥ 1`, the Monte Carlo price is nonnegative: each payoff is
a `max(·,0)`, the accumulated total is nonnegative, and the positive
discount factor and path count preserve the sign. -/
theorem C10_mc_price_nonneg (option : Option) (p : Parameters) (g : RNG) (n : ℕ)
    (hn : 1 ≤ n) :
    0 ≤ (MonteCarloprice.mc_price option p g n).1 := by
  rw [mc_price_eq]
  unfold Spec.mcEstimate
  refine mul_nonneg (Real.exp_pos _).le (div_nonneg ?_ (Nat.cast_nonneg n))
  exact Finset.sum_nonneg fun i _ => Option.payoff_nonneg option _

/-- Witness for C10 with one path. -/
theorem C10_mc_price_nonneg_witness :
    1 ≤ 1 ∧
      0 ≤ (MonteCarloprice.mc_price (Option.EuropeanPut 1) (Parameters.mk 1 1 1 1)
        (RNG.mk (fun _ => 0) 0) 1).1 :=
  ⟨le_refl 1,
    C10_mc_price_nonneg (Option.EuropeanPut 1) (Parameters.mk 1 1 1 1)
      (RNG.mk (fun _ => 0) 0) 1 (le_refl 1)⟩

end Pricing

namespace Pricing

/-- C2 (evaluation at the failing input): `mc_price` performs no input
validation.  With `pathCount = 0` the trial loop contributes no payoffs
and the function still computes the final division: the result is
`exp(-r·T)·(0/0)`, the division by the zero path count being reached
unguarded.  In the IEEE semantics of the C++ `double` division this is a
silently returned NaN; the function's return type carries numbers only
and contains no error channel, so no documented invalid-input failure
can be produced. -/
theorem C2_mc_price_zero_paths_unvalidated (option : Option) (p : Parameters) (g : RNG) :
    MonteCarloprice.mc_price option p g 0 =
      (Real.exp (-p.r * p.T) * ((0:ℝ) / (0:ℝ)), g) := by
  unfold MonteCarloprice.mc_price
  rw [show MonteCarloprice.mcLoop option p 0 0 g = (0, g) from rfl]
  norm_num

/-- C8 (counterexample): the Monte Carlo output is not determined by any
caller-supplied seed, because the code's `RNG` has no caller-supplied
seed: its only constructor draws its seed from `std::random_device`.
Two executions of the very same caller-visible call — same payoff, same
parameters, same path count, the generator constructed by the same
`RNG()` expression — differ when the random device hands the engine
different entropy (modelled as the draw streams the device-seeded engine
emits). -/
theorem C8_counterexample_device_entropy :
    (MonteCarloprice.mc_price (Option.EuropeanCall 2) (Parameters.mk 1 2 2 1)
        (RNG.construct fun _ => 0) 1).1 ≠
      (MonteCarloprice.mc_price (Option.EuropeanCall 2) (Parameters.mk 1 2 2 1)
        (RNG.construct fun _ => 1) 1).1 := by
  have he2 : (3:ℝ) ≤ Real.exp 2 := by
    have := Real.add_one_le_exp (2:ℝ); linarith
  rw [mc_price_eq, mc_price_eq]
  simp only [Spec.mcEstimate, RNG.construct, Option.payoff, Finset.sum_range_one,
    Real.sqrt_one]
  norm_num
  linarith

/-- C8 (amended): the Monte Carlo price is a deterministic function of
the generator state: two invocations with identical payoff, parameters
and path count whose generator states produce the same next `n` draws
return the identical result. -/
theorem C8_two_run_determinism (option : Option) (p : Parameters) (g₁ g₂ : RNG)
    (n : ℕ) (h : ∀ i < n, g₁.gauss (g₁.pos + i) = g₂.gauss (g₂.pos + i)) :
    (MonteCarloprice.mc_price option p g₁ n).1 =
      (MonteCarloprice.mc_price option p g₂ n).1 := by
  rw [mc_price_eq, mc_price_eq]
  show Spec.mcEstimate option p g₁ n = Spec.mcEstimate option p g₂ n
  unfold Spec.mcEstimate
  have hsum : (∑ i ∈ Finset.range n, option.payoff (p.S * Real.exp
        ((p.r - p.sigma ^ 2 / 2) * p.T + p.sigma * Real.sqrt p.T * g₁.gauss (g₁.pos + i)))) =
      ∑ i ∈ Finset.range n, option.payoff (p.S * Real.exp
        ((p.r - p.sigma ^ 2 / 2) * p.T + p.sigma * Real.sqrt p.T * g₂.gauss (g₂.pos + i))) :=
    Finset.sum_congr rfl fun i hi => by rw [h i (Finset.mem_range.mp hi)]
  rw [hsum]

/-- Witness for the amended C8: two generators over the same constant
stream at different positions produce the same two draws, hence the same
price. -/
theorem C8_two_run_determinism_witness :
    (∀ i < 2, (RNG.mk (fun _ => (1:ℝ)) 0).gauss ((RNG.mk (fun _ => (1:ℝ)) 0).pos + i) =
        (RNG.mk (fun _ => (1:ℝ)) 7).gauss ((RNG.mk (fun _ => (1:ℝ)) 7).pos + i)) ∧
      (MonteCarloprice.mc_price (Option.EuropeanCall 1) (Parameters.mk 1 1 0 1)
          (RNG.mk (fun _ => (1:ℝ)) 0) 2).1 =
        (MonteCarloprice.mc_price (Option.EuropeanCall 1) (Parameters.mk 1 1 0 1)
          (RNG.mk (fun _ => (1:ℝ)) 7) 2).1 :=
  ⟨fun _ _ => rfl,
    C8_two_run_determinism (Option.EuropeanCall 1) (Parameters.mk 1 1 0 1)
      (RNG.mk (fun _ => (1:ℝ)) 0) (RNG.mk (fun _ => (1:ℝ)) 7) 2 (fun _ _ => rfl)⟩

end Pricing
